import Mathlib

/-!
Shallow embedding of the multi-tenant migration runner (`Manager` in
`src/migrate/index.ts`): discovery ordering, pending-set computation,
the skip path and the execute path, together with proofs of the spec's
testable properties.

Side effects are made explicit: the record store is a list of
`MigrationRecord`s in insertion order, and every hook invocation and
record-store access is logged into an event trace.  Hooks are opaque to
the engine, so each migration carries, for every tenant id, the outcome
of its `up` / `test` / `down` hooks: `none` means the hook succeeds,
`some e` means it throws the error coded `e`.
-/

namespace Talk

/-- Status of a persisted migration record: `completed`, `skipped`, or
`failed` (`record.failed` in the source corresponds to `.failed`). -/
inductive Status where
  | completed
  | skipped
  | failed
deriving DecidableEq, Repr

/-- Modelled from the spec (§3 "Migration Record"): the persisted outcome of
attempting a version; the record document type itself lives in
`coral-server/models/migration`, outside `src/`. -/
structure MigrationRecord where
  version : Nat
  status : Status
deriving DecidableEq, Repr

/-- The record store state: the persisted ledger, in insertion order. -/
abbrev Store := List MigrationRecord

/-- A migration unit: `version` and `name` parsed from the filename,
a mandatory `up` hook and optional `test` / `down` hooks.  A hook is
modelled by its outcome per tenant id: `none` = success, `some e` =
it throws error code `e`. -/
structure Migration where
  version : Nat
  name : String
  up : Nat → Option Nat
  testHook : Option (Nat → Option Nat)
  downHook : Option (Nat → Option Nat)

/-- Observable events of a run: hook invocations and record-store calls. -/
inductive Event where
  | upCall (version tenantId : Nat)
  | testCall (version tenantId : Nat)
  | downCall (version tenantId : Nat)
  | readRecords
  | writeCompleted (version : Nat)
  | writeFailed (version : Nat)
  | writeSkipped (versions : List Nat)
deriving DecidableEq, Repr

/-- Errors the engine can raise: the `FailedMigrationDetectedError`
carrying the offending record, the two invariant-violation faults, and a
re-raised hook error. -/
inductive Err where
  | failedMigrationDetected (record : MigrationRecord)
  | alreadyRan
  | skipOnNonEmptyStore
  | hookError (code : Nat)
deriving DecidableEq, Repr

/-- Equality of run results is decidable, so concrete runs can be checked
by evaluation. -/
instance decEqExceptErrUnit : DecidableEq (Except Err Unit) := fun a b =>
  match a, b with
  | Except.ok (), Except.ok () => isTrue rfl
  | Except.ok (), Except.error _ => isFalse (fun h => Except.noConfusion h)
  | Except.error _, Except.ok () => isFalse (fun h => Except.noConfusion h)
  | Except.error e₁, Except.error e₂ =>
    if h : e₁ = e₂ then isTrue (by rw [h])
    else isFalse (fun hh => h (Except.error.inj hh))

/-- The manager: the sorted migration list and the one-shot `ran` flag. -/
structure Manager where
  migrations : List Migration
  ran : Bool

/-- The source comparator in the constructor: `-1` when `a.version <
b.version`, `1` when `a.version > b.version`, `0` otherwise. -/
def migrationComparator (a b : Migration) : Int :=
  if a.version < b.version then -1
  else if a.version > b.version then 1
  else 0

/-- The sort step of the constructor (`this.migrations.sort(...)`): sort the
discovered migrations with the comparator, keeping elements whose comparison
is `≤ 0` in order (a stable sort, as `Array.prototype.sort` is). -/
def sortMigrations (ms : List Migration) : List Migration :=
  ms.mergeSort (fun a b => migrationComparator a b ≤ 0)

/-- `retrieveAllMigrationRecords`.  Modelled from the spec (§4.2): returns
the full ordered sequence of records; the implementation lives in
`coral-server/models/migration`, outside `src/`. -/
def retrieveAllMigrationRecords (st : Store) : List MigrationRecord × List Event :=
  (st, [Event.readRecords])

/-- `createMigrationRecord`.  Modelled from the spec (§4.2): appends one
`completed` record for the version. -/
def createMigrationRecord (st : Store) (version : Nat) : Store × List Event :=
  (st ++ [⟨version, Status.completed⟩], [Event.writeCompleted version])

/-- `createFailedMigrationRecord`.  Modelled from the spec (§4.2): appends
one `failed` record for the version. -/
def createFailedMigrationRecord (st : Store) (version : Nat) : Store × List Event :=
  (st ++ [⟨version, Status.failed⟩], [Event.writeFailed version])

/-- `createSkippedMigrationRecords`.  Modelled from the spec (§4.2): bulk
appends one `skipped` record per version, in one call. -/
def createSkippedMigrationRecords (st : Store) (versions : List Nat) :
    Store × List Event :=
  (st ++ versions.map (fun v => ⟨v, Status.skipped⟩), [Event.writeSkipped versions])

/-- The `records.forEach(record => { if (record.failed) throw ... })` loop:
the first record with status `failed`, if any. -/
def findFailed : List MigrationRecord → Option MigrationRecord
  | [] => none
  | r :: rs => if r.status = Status.failed then some r else findFailed rs

/-- The filter of `Manager.pending`: the discovered migrations whose
version has no matching record. -/
def pendingList (migrations : List Migration) (records : List MigrationRecord) :
    List Migration :=
  migrations.filter
    (fun migration => !(records.any (fun record => migration.version == record.version)))

/-- `Manager.pending`: fetch all records; throw
`FailedMigrationDetectedError` at the first failed record; otherwise filter
the discovered migrations down to those whose version matches no record. -/
def pending (migrations : List Migration) (st : Store) :
    Except Err (List Migration) × List Event :=
  let (records, evs) := retrieveAllMigrationRecords st
  match findFailed records with
  | some r => (Except.error (Err.failedMigrationDetected r), evs)
  | none => (Except.ok (pendingList migrations records), evs)

/-- `Manager.currentMigration`: the last stored record, or `none`. -/
def currentMigration (st : Store) : Option MigrationRecord × List Event :=
  let (records, evs) := retrieveAllMigrationRecords st
  (records.getLast?, evs)

/-- `Manager.skipPendingMigrations`: fault if already ran; mark ran; fault
if the store is non-empty; bulk-create skipped records for every discovered
version. -/
def skipPendingMigrations (mgr : Manager) (st : Store) :
    Except Err Unit × Manager × Store × List Event :=
  if mgr.ran then
    (Except.error Err.alreadyRan, mgr, st, [])
  else
    let mgr' : Manager := { mgr with ran := true }
    let (cur, evs₁) := currentMigration st
    match cur with
    | some _ => (Except.error Err.skipOnNonEmptyStore, mgr', st, evs₁)
    | none =>
      let (st', evs₂) :=
        createSkippedMigrationRecords st (mgr'.migrations.map Migration.version)
      (Except.ok (), mgr', st', evs₁ ++ evs₂)

/-- The catch block of the per-tenant loop: on an `up`/`test` failure with
original error `e`, attempt `down` when available (its own failure
propagates uncaught, replacing `e`), then persist a `failed` record and
rethrow `e`. -/
def catchFailure (m : Migration) (tenantId : Nat) (e : Nat) (st : Store)
    (evs : List Event) : Except Err Unit × Store × List Event :=
  match m.downHook with
  | some down =>
    match down tenantId with
    | some e' =>
      (Except.error (Err.hookError e'), st, evs ++ [Event.downCall m.version tenantId])
    | none =>
      let (st', evs') := createFailedMigrationRecord st m.version
      (Except.error (Err.hookError e), st',
       evs ++ [Event.downCall m.version tenantId] ++ evs')
  | none =>
    let (st', evs') := createFailedMigrationRecord st m.version
    (Except.error (Err.hookError e), st', evs ++ evs')

/-- The body of the per-tenant loop: `up`, then `test` when exposed, with
the catch block on failure. -/
def runTenant (m : Migration) (tenantId : Nat) (st : Store) :
    Except Err Unit × Store × List Event :=
  match m.up tenantId with
  | some e => catchFailure m tenantId e st [Event.upCall m.version tenantId]
  | none =>
    match m.testHook with
    | none => (Except.ok (), st, [Event.upCall m.version tenantId])
    | some test =>
      match test tenantId with
      | none =>
        (Except.ok (), st,
         [Event.upCall m.version tenantId, Event.testCall m.version tenantId])
      | some e =>
        catchFailure m tenantId e st
          [Event.upCall m.version tenantId, Event.testCall m.version tenantId]

/-- The `for await (const tenant of this.tenants)` loop of one migration:
tenants strictly in the order the source yields them, stopping at the
first failure. -/
def runTenants (m : Migration) : List Nat → Store → Except Err Unit × Store × List Event
  | [], st => (Except.ok (), st, [])
  | t :: ts, st =>
    match runTenant m t st with
    | (Except.ok _, st', evs) =>
      let (r, st'', evs') := runTenants m ts st'
      (r, st'', evs ++ evs')
    | (Except.error e, st', evs) => (Except.error e, st', evs)

/-- One iteration of the outer migration loop: run every tenant, then mark
the migration completed. -/
def runMigration (tenants : List Nat) (m : Migration) (st : Store) :
    Except Err Unit × Store × List Event :=
  match runTenants m tenants st with
  | (Except.ok _, st', evs) =>
    let (st'', evs') := createMigrationRecord st' m.version
    (Except.ok (), st'', evs ++ evs')
  | (Except.error e, st', evs) => (Except.error e, st', evs)

/-- The outer `for (const migration of pending)` loop: migrations strictly
in order, stopping at the first failure. -/
def runMigrations (tenants : List Nat) :
    List Migration → Store → Except Err Unit × Store × List Event
  | [], st => (Except.ok (), st, [])
  | m :: ms, st =>
    match runMigration tenants m st with
    | (Except.ok _, st', evs) =>
      let (r, st'', evs') := runMigrations tenants ms st'
      (r, st'', evs ++ evs')
    | (Except.error e, st', evs) => (Except.error e, st', evs)

/-- `Manager.executePendingMigrations`: fault if already ran; mark ran;
snapshot `currentMigration`; compute `pending` (which may throw); on an
empty pending set log and return; otherwise run every pending migration
and re-snapshot `currentMigration`. -/
def executePendingMigrations (mgr : Manager) (tenants : List Nat) (st : Store) :
    Except Err Unit × Manager × Store × List Event :=
  if mgr.ran then
    (Except.error Err.alreadyRan, mgr, st, [])
  else
    let mgr' : Manager := { mgr with ran := true }
    let (_, evs₀) := currentMigration st
    match pending mgr'.migrations st with
    | (Except.error e, evs₁) => (Except.error e, mgr', st, evs₀ ++ evs₁)
    | (Except.ok ps, evs₁) =>
      if ps.isEmpty then
        (Except.ok (), mgr', st, evs₀ ++ evs₁)
      else
        match runMigrations tenants ps st with
        | (Except.ok _, st', evs₂) =>
          let (_, evs₃) := currentMigration st'
          (Except.ok (), mgr', st', evs₀ ++ evs₁ ++ evs₂ ++ evs₃)
        | (Except.error e, st', evs₂) =>
          (Except.error e, mgr', st', evs₀ ++ evs₁ ++ evs₂)

/-! ### Derived notions used to state the properties -/

/-- The migration version a hook-invocation event belongs to, if the event
is a hook invocation at all. -/
def hookVersion : Event → Option Nat
  | Event.upCall v _ => some v
  | Event.testCall v _ => some v
  | Event.downCall v _ => some v
  | _ => none

/-- The version a completed-record write is for, if the event is one. -/
def completedVersion : Event → Option Nat
  | Event.writeCompleted v => some v
  | _ => none

/-- Whether `up` (and `test`, when exposed) succeed for this tenant. -/
def succeedsB (m : Migration) (t : Nat) : Bool :=
  (m.up t).isNone &&
    (match m.testHook with
     | some f => (f t).isNone
     | none => true)

/-- The original error raised for this tenant: `up`'s error if `up` fails,
otherwise `test`'s (when exposed). -/
def firstErr (m : Migration) (t : Nat) : Option Nat :=
  match m.up t with
  | some e => some e
  | none =>
    match m.testHook with
    | some f => f t
    | none => none

/-- The events of one fully successful tenant iteration. -/
def tenantEvents (m : Migration) (t : Nat) : List Event :=
  Event.upCall m.version t ::
    (match m.testHook with
     | some _ => [Event.testCall m.version t]
     | none => [])

/-- The events of a run of fully successful tenant iterations. -/
def tenantTrace (m : Migration) (ts : List Nat) : List Event :=
  ts.flatMap (tenantEvents m)

/-- The events of one fully successful migration: all tenants, then the
completed-record write. -/
def fullTrace (ts : List Nat) (m : Migration) : List Event :=
  tenantTrace m ts ++ [Event.writeCompleted m.version]

/-- The events of the failing tenant iteration when the down hook, if
exposed, succeeds: the failing hooks, the rollback when available, and the
failed-record write. -/
def failEvents (m : Migration) (t : Nat) : List Event :=
  (match m.up t with
   | some _ => [Event.upCall m.version t]
   | none => [Event.upCall m.version t, Event.testCall m.version t]) ++
  (match m.downHook with
   | some _ => [Event.downCall m.version t]
   | none => []) ++
  [Event.writeFailed m.version]

/-- A migration whose hooks always succeed, used for concrete instances. -/
def mkMigration (v : Nat) : Migration :=
  ⟨v, "noop", fun _ => none, none, none⟩

/-- A migration whose `up` fails at tenant 1 with error 5 and whose `down`
hook succeeds, used for concrete instances. -/
def failingMigration : Migration :=
  ⟨2, "failing", fun t => if t == 1 then some 5 else none, none,
   some (fun _ => none)⟩

/-- An event that is not a completed-record write and whose hook
invocations, if any, belong to migration `m`. -/
def eventOf (m : Migration) (e : Event) : Prop :=
  completedVersion e = none ∧ ∀ v, hookVersion e = some v → v = m.version

/-! ### Basic lemmas about the embedded operations -/

lemma comparator_le_zero (a b : Migration) :
    migrationComparator a b ≤ 0 ↔ a.version ≤ b.version := by
  unfold migrationComparator
  split_ifs <;> omega

lemma comparator_eq_zero_of_eq (a b : Migration) (h : a.version = b.version) :
    migrationComparator a b = 0 := by
  unfold migrationComparator
  split_ifs <;> omega

lemma findFailed_eq_none (l : List MigrationRecord)
    (h : ∀ r ∈ l, r.status ≠ Status.failed) : findFailed l = none := by
  induction l with
  | nil => rfl
  | cons r rs ih =>
    simp only [findFailed]
    rw [if_neg (h r (List.mem_cons_self r rs))]
    exact ih (fun r' hr' => h r' (List.mem_cons_of_mem r hr'))

lemma findFailed_mem_and_failed :
    ∀ (l : List MigrationRecord) (r : MigrationRecord),
      findFailed l = some r → r ∈ l ∧ r.status = Status.failed := by
  intro l
  induction l with
  | nil => intro r h; simp [findFailed] at h
  | cons a rs ih =>
    intro r h
    simp only [findFailed] at h
    by_cases ha : a.status = Status.failed
    · rw [if_pos ha] at h
      cases h
      exact ⟨List.mem_cons_self a rs, ha⟩
    · rw [if_neg ha] at h
      rcases ih r h with ⟨h1, h2⟩
      exact ⟨List.mem_cons_of_mem a h1, h2⟩

lemma findFailed_isSome (l : List MigrationRecord)
    (hf : ∃ r ∈ l, r.status = Status.failed) : ∃ r, findFailed l = some r := by
  induction l with
  | nil => simp at hf
  | cons a rs ih =>
    by_cases ha : a.status = Status.failed
    · exact ⟨a, by simp [findFailed, ha]⟩
    · rcases hf with ⟨r, hr, hrs⟩
      rcases List.mem_cons.mp hr with rfl | hr'
      · exact absurd hrs ha
      · rcases ih ⟨r, hr', hrs⟩ with ⟨r', h'⟩
        exact ⟨r', by simp [findFailed, ha, h']⟩

lemma mem_pendingList (migrations : List Migration) (records : List MigrationRecord)
    (m : Migration) :
    m ∈ pendingList migrations records ↔
      m ∈ migrations ∧ ∀ r ∈ records, r.version ≠ m.version := by
  simp only [pendingList, List.mem_filter, Bool.not_eq_true', List.any_eq_false,
    beq_iff_eq]
  constructor
  · rintro ⟨h1, h2⟩
    exact ⟨h1, fun r hr => fun hv => absurd hv.symm (h2 r hr)⟩
  · rintro ⟨h1, h2⟩
    exact ⟨h1, fun r hr => fun hv => absurd hv.symm (h2 r hr)⟩

/-! ### Lemmas about the per-tenant loop -/

lemma runTenant_ok (m : Migration) (t : Nat) (st : Store)
    (h : succeedsB m t = true) :
    runTenant m t st = (Except.ok (), st, tenantEvents m t) := by
  unfold succeedsB at h
  cases hu : m.up t with
  | some e => rw [hu] at h; simp at h
  | none =>
    cases ht : m.testHook with
    | none => simp [runTenant, hu, ht, tenantEvents]
    | some f =>
      cases htt : f t with
      | none => simp [runTenant, hu, ht, htt, tenantEvents]
      | some e => rw [hu, ht] at h; simp [htt] at h

lemma catchFailure_eq_noDown (m : Migration) (t ec : Nat) (st : Store)
    (evs : List Event) (hd : m.downHook = none) :
    catchFailure m t ec st evs =
      (Except.error (Err.hookError ec), st ++ [⟨m.version, Status.failed⟩],
       evs ++ [Event.writeFailed m.version]) := by
  simp [catchFailure, hd, createFailedMigrationRecord]

lemma catchFailure_eq_downOk (m : Migration) (t ec : Nat) (st : Store)
    (evs : List Event) (d : Nat → Option Nat) (hd : m.downHook = some d)
    (hdt : d t = none) :
    catchFailure m t ec st evs =
      (Except.error (Err.hookError ec), st ++ [⟨m.version, Status.failed⟩],
       evs ++ [Event.downCall m.version t] ++ [Event.writeFailed m.version]) := by
  simp [catchFailure, hd, hdt, createFailedMigrationRecord]

lemma catchFailure_eq_downFail (m : Migration) (t ec : Nat) (st : Store)
    (evs : List Event) (d : Nat → Option Nat) (e' : Nat) (hd : m.downHook = some d)
    (hdt : d t = some e') :
    catchFailure m t ec st evs =
      (Except.error (Err.hookError e'), st, evs ++ [Event.downCall m.version t]) := by
  simp [catchFailure, hd, hdt]

lemma catchFailure_error (m : Migration) (t ec : Nat) (st : Store)
    (evs : List Event) :
    ∃ err st' evs', catchFailure m t ec st evs = (Except.error err, st', evs') := by
  cases hd : m.downHook with
  | none => exact ⟨_, _, _, catchFailure_eq_noDown m t ec st evs hd⟩
  | some d =>
    cases hdt : d t with
    | none => exact ⟨_, _, _, catchFailure_eq_downOk m t ec st evs d hd hdt⟩
    | some e' => exact ⟨_, _, _, catchFailure_eq_downFail m t ec st evs d e' hd hdt⟩

lemma runTenant_eq_upFail (m : Migration) (t : Nat) (st : Store) (e : Nat)
    (hu : m.up t = some e) :
    runTenant m t st = catchFailure m t e st [Event.upCall m.version t] := by
  simp [runTenant, hu]

lemma runTenant_eq_testFail (m : Migration) (t : Nat) (st : Store)
    (f : Nat → Option Nat) (e : Nat) (hu : m.up t = none)
    (ht : m.testHook = some f) (htt : f t = some e) :
    runTenant m t st =
      catchFailure m t e st
        [Event.upCall m.version t, Event.testCall m.version t] := by
  simp [runTenant, hu, ht, htt]

lemma runTenant_fail (m : Migration) (t : Nat) (st : Store)
    (h : succeedsB m t = false) :
    ∃ err st' evs, runTenant m t st = (Except.error err, st', evs) := by
  unfold succeedsB at h
  cases hu : m.up t with
  | some e =>
    rw [runTenant_eq_upFail m t st e hu]
    exact catchFailure_error m t e st _
  | none =>
    cases ht : m.testHook with
    | none => rw [hu, ht] at h; simp at h
    | some f =>
      cases htt : f t with
      | none => rw [hu, ht] at h; simp [htt] at h
      | some e =>
        rw [runTenant_eq_testFail m t st f e hu ht htt]
        exact catchFailure_error m t e st _

lemma eventOf_writeFailed (m : Migration) (v : Nat) :
    eventOf m (Event.writeFailed v) := by
  exact ⟨rfl, fun v' hv' => by simp [hookVersion] at hv'⟩

lemma catchFailure_events (m : Migration) (t : Nat) (ec : Nat) (st : Store)
    (evs : List Event) (h : ∀ e ∈ evs, eventOf m e) :
    ∀ e ∈ (catchFailure m t ec st evs).2.2, eventOf m e := by
  have hdown : eventOf m (Event.downCall m.version t) :=
    ⟨rfl, fun v hv => (Option.some.inj hv).symm⟩
  cases hd : m.downHook with
  | none =>
    rw [catchFailure_eq_noDown m t ec st evs hd]
    intro e he
    rcases List.mem_append.mp he with h1 | h1
    · exact h e h1
    · rcases List.mem_singleton.mp h1 with rfl
      exact eventOf_writeFailed m m.version
  | some d =>
    cases hdt : d t with
    | none =>
      rw [catchFailure_eq_downOk m t ec st evs d hd hdt]
      intro e he
      rcases List.mem_append.mp he with h1 | h1
      · rcases List.mem_append.mp h1 with h2 | h2
        · exact h e h2
        · rcases List.mem_singleton.mp h2 with rfl
          exact hdown
      · rcases List.mem_singleton.mp h1 with rfl
        exact eventOf_writeFailed m m.version
    | some e' =>
      rw [catchFailure_eq_downFail m t ec st evs d e' hd hdt]
      intro e he
      rcases List.mem_append.mp he with h1 | h1
      · exact h e h1
      · rcases List.mem_singleton.mp h1 with rfl
        exact hdown

lemma runTenant_events (m : Migration) (t : Nat) (st : Store) :
    ∀ e ∈ (runTenant m t st).2.2, eventOf m e := by
  have hup : eventOf m (Event.upCall m.version t) :=
    ⟨rfl, fun v hv => (Option.some.inj hv).symm⟩
  have htest : eventOf m (Event.testCall m.version t) :=
    ⟨rfl, fun v hv => (Option.some.inj hv).symm⟩
  cases hu : m.up t with
  | some e =>
    rw [runTenant_eq_upFail m t st e hu]
    refine catchFailure_events m t e st _ ?_
    intro e' he'
    rcases List.mem_singleton.mp he' with rfl
    exact hup
  | none =>
    cases ht : m.testHook with
    | none =>
      rw [runTenant_ok m t st (by simp [succeedsB, hu, ht])]
      intro e he
      rcases List.mem_singleton.mp (by simpa [tenantEvents, ht] using he) with rfl
      exact hup
    | some f =>
      cases htt : f t with
      | none =>
        rw [runTenant_ok m t st (by simp [succeedsB, hu, ht, htt])]
        intro e he
        rcases (by simpa [tenantEvents, ht] using he :
            e = Event.upCall m.version t ∨ e = Event.testCall m.version t) with rfl | rfl
        · exact hup
        · exact htest
      | some e =>
        rw [runTenant_eq_testFail m t st f e hu ht htt]
        refine catchFailure_events m t e st _ ?_
        intro e' he'
        rcases List.mem_cons.mp he' with rfl | he''
        · exact hup
        · rcases List.mem_singleton.mp he'' with rfl
          exact htest

/-! ### Lemmas about the tenant loop and the migration loop -/

lemma runTenants_ok (m : Migration) (ts : List Nat) (st : Store)
    (h : ∀ t ∈ ts, succeedsB m t = true) :
    runTenants m ts st = (Except.ok (), st, tenantTrace m ts) := by
  induction ts generalizing st with
  | nil => simp [runTenants, tenantTrace]
  | cons t ts ih =>
    have h1 := runTenant_ok m t st (h t (List.mem_cons_self t ts))
    have h2 := ih st (fun t' ht' => h t' (List.mem_cons_of_mem t ht'))
    simp [runTenants, h1, h2, tenantTrace]

lemma runTenants_events (m : Migration) (ts : List Nat) (st : Store) :
    ∀ e ∈ (runTenants m ts st).2.2, eventOf m e := by
  induction ts generalizing st with
  | nil => simp [runTenants]
  | cons t ts ih =>
    rcases hrt : runTenant m t st with ⟨r, st', evs⟩
    have hevs : ∀ e ∈ evs, eventOf m e := by
      have := runTenant_events m t st
      rw [hrt] at this
      exact this
    cases r with
    | ok u =>
      rw [runTenants, hrt]
      intro e he
      rcases List.mem_append.mp (by simpa using he) with h1 | h1
      · exact hevs e h1
      · exact ih st' e h1
    | error er =>
      rw [runTenants, hrt]
      intro e he
      exact hevs e he

lemma runTenants_error_of_not_all (m : Migration) (ts : List Nat) (st : Store)
    (h : ¬ ∀ t ∈ ts, succeedsB m t = true) :
    ∃ err st' evs, runTenants m ts st = (Except.error err, st', evs) := by
  induction ts generalizing st with
  | nil => exact absurd (by simp) h
  | cons t ts ih =>
    by_cases ht : succeedsB m t = true
    · have h' : ¬ ∀ t' ∈ ts, succeedsB m t' = true := by
        intro hh
        refine h ?_
        intro t' ht'
        rcases List.mem_cons.mp ht' with rfl | htl
        · exact ht
        · exact hh t' htl
      obtain ⟨err, st', evs, he⟩ := ih st h'
      refine ⟨err, st', tenantEvents m t ++ evs, ?_⟩
      simp [runTenants, runTenant_ok m t st ht, he]
    · obtain ⟨err, st', evs, he⟩ := runTenant_fail m t st (by simpa using ht)
      refine ⟨err, st', evs, ?_⟩
      simp [runTenants, he]

lemma runTenants_fail_at (m : Migration) (pre : List Nat) (tk : Nat)
    (post : List Nat) (st : Store)
    (hpre : ∀ t ∈ pre, succeedsB m t = true) (htk : succeedsB m tk = false) :
    runTenants m (pre ++ tk :: post) st =
      ((runTenant m tk st).1, (runTenant m tk st).2.1,
       tenantTrace m pre ++ (runTenant m tk st).2.2) := by
  induction pre generalizing st with
  | nil =>
    obtain ⟨err, st', evs, he⟩ := runTenant_fail m tk st htk
    simp [runTenants, he, tenantTrace]
  | cons t pre ih =>
    have h1 := runTenant_ok m t st (hpre t (List.mem_cons_self t pre))
    have h2 := ih st (fun t' ht' => hpre t' (List.mem_cons_of_mem t ht'))
    simp only [List.cons_append, runTenants, h1]
    simp only [List.append_eq]
    rw [h2]
    simp [tenantTrace, List.append_assoc]

lemma runTenant_fail_downOk (m : Migration) (t : Nat) (st : Store)
    (h : succeedsB m t = false)
    (hdown : ∀ d, m.downHook = some d → d t = none) :
    ∃ e, firstErr m t = some e ∧
      runTenant m t st =
        (Except.error (Err.hookError e), st ++ [⟨m.version, Status.failed⟩],
         failEvents m t) := by
  unfold succeedsB at h
  cases hu : m.up t with
  | some e =>
    refine ⟨e, by simp [firstErr, hu], ?_⟩
    rw [runTenant_eq_upFail m t st e hu]
    cases hd : m.downHook with
    | none => rw [catchFailure_eq_noDown m t e st _ hd]; simp [failEvents, hu, hd]
    | some d =>
      rw [catchFailure_eq_downOk m t e st _ d hd (hdown d hd)]
      simp [failEvents, hu, hd]
  | none =>
    cases ht : m.testHook with
    | none => rw [hu, ht] at h; simp at h
    | some f =>
      cases htt : f t with
      | none => rw [hu, ht] at h; simp [htt] at h
      | some e =>
        refine ⟨e, by simp [firstErr, hu, ht, htt], ?_⟩
        rw [runTenant_eq_testFail m t st f e hu ht htt]
        cases hd : m.downHook with
        | none => rw [catchFailure_eq_noDown m t e st _ hd]; simp [failEvents, hu, hd]
        | some d =>
          rw [catchFailure_eq_downOk m t e st _ d hd (hdown d hd)]
          simp [failEvents, hu, hd]

lemma runMigration_ok (ts : List Nat) (m : Migration) (st : Store)
    (h : ∀ t ∈ ts, succeedsB m t = true) :
    runMigration ts m st =
      (Except.ok (), st ++ [⟨m.version, Status.completed⟩], fullTrace ts m) := by
  rw [runMigration, runTenants_ok m ts st h]
  simp [createMigrationRecord, fullTrace]

lemma runMigration_error_events (ts : List Nat) (m : Migration) (st : Store)
    (h : ¬ ∀ t ∈ ts, succeedsB m t = true) :
    ∃ err st' evs, runMigration ts m st = (Except.error err, st', evs) ∧
      ∀ e ∈ evs, eventOf m e := by
  obtain ⟨err, st', evs, he⟩ := runTenants_error_of_not_all m ts st h
  refine ⟨err, st', evs, ?_, ?_⟩
  · rw [runMigration, he]
  · have := runTenants_events m ts st
    rw [he] at this
    exact this

lemma runMigrations_all_ok (ts : List Nat) :
    ∀ (ps : List Migration) (st : Store),
      (∀ m ∈ ps, ∀ t ∈ ts, succeedsB m t = true) →
      runMigrations ts ps st =
        (Except.ok (), st ++ ps.map (fun m => ⟨m.version, Status.completed⟩),
         ps.flatMap (fullTrace ts)) := by
  intro ps
  induction ps with
  | nil => intro st _; simp [runMigrations]
  | cons m ms ih =>
    intro st h
    have h1 := runMigration_ok ts m st (h m (List.mem_cons_self m ms))
    have h2 := ih (st ++ [⟨m.version, Status.completed⟩])
      (fun m' hm' => h m' (List.mem_cons_of_mem m hm'))
    simp [runMigrations, h1, h2, List.flatMap_cons, List.append_assoc]

lemma exec_reduces (mgr : Manager) (tenants : List Nat) (st : Store)
    (hran : mgr.ran = false) (hnf : findFailed st = none) :
    ∃ tail, (∀ e ∈ tail, e = Event.readRecords) ∧
      (∀ err, (runMigrations tenants (pendingList mgr.migrations st) st).1 =
        Except.error err → tail = []) ∧
      executePendingMigrations mgr tenants st =
        ((runMigrations tenants (pendingList mgr.migrations st) st).1,
         { mgr with ran := true },
         (runMigrations tenants (pendingList mgr.migrations st) st).2.1,
         Event.readRecords :: Event.readRecords ::
           ((runMigrations tenants (pendingList mgr.migrations st) st).2.2 ++ tail)) := by
  by_cases hps : (pendingList mgr.migrations st).isEmpty
  · have hnil : pendingList mgr.migrations st = [] := by
      simpa using hps
    refine ⟨[], by simp, fun _ _ => rfl, ?_⟩
    simp [executePendingMigrations, hran, currentMigration,
      retrieveAllMigrationRecords, pending, hnf, hnil, runMigrations]
  · rcases hrun : runMigrations tenants (pendingList mgr.migrations st) st
      with ⟨r, st', evs⟩
    cases r with
    | ok u =>
      refine ⟨[Event.readRecords], by simp, ?_, ?_⟩
      · intro err herr
        exact Except.noConfusion herr
      · simp [executePendingMigrations, hran, currentMigration,
          retrieveAllMigrationRecords, pending, hnf, hps, hrun]
    | error e =>
      refine ⟨[], by simp, fun _ _ => rfl, ?_⟩
      simp [executePendingMigrations, hran, currentMigration,
        retrieveAllMigrationRecords, pending, hnf, hps, hrun]

lemma skip_already_ran (mgr : Manager) (st : Store) (h : mgr.ran = true) :
    skipPendingMigrations mgr st = (Except.error Err.alreadyRan, mgr, st, []) := by
  simp [skipPendingMigrations, h]

lemma exec_already_ran (mgr : Manager) (tenants : List Nat) (st : Store)
    (h : mgr.ran = true) :
    executePendingMigrations mgr tenants st =
      (Except.error Err.alreadyRan, mgr, st, []) := by
  simp [executePendingMigrations, h]

lemma ran_after_skip (mgr : Manager) (st : Store) :
    (skipPendingMigrations mgr st).2.1.ran = true := by
  by_cases h : mgr.ran
  · simp [skipPendingMigrations, h]
  · simp only [skipPendingMigrations, h, if_false]
    cases hl : st.getLast? <;>
      simp [currentMigration, retrieveAllMigrationRecords, hl,
        createSkippedMigrationRecords]

lemma ran_after_exec (mgr : Manager) (tenants : List Nat) (st : Store) :
    (executePendingMigrations mgr tenants st).2.1.ran = true := by
  by_cases h : mgr.ran
  · simp [executePendingMigrations, h]
  · by_cases hnf : findFailed st = none
    · obtain ⟨tail, _, _, heq⟩ := exec_reduces mgr tenants st (by simpa using h) hnf
      rw [heq]
    · obtain ⟨r, hr⟩ : ∃ r, findFailed st = some r := by
        cases hfind : findFailed st with
        | none => exact absurd hfind hnf
        | some r => exact ⟨r, rfl⟩
      simp [executePendingMigrations, h, currentMigration,
        retrieveAllMigrationRecords, pending, hr]

/-! ### The claims -/

/-- C8: the migration list produced at construction is sorted ascending by
version, the sort is a permutation of the discovered set (duplicate
versions are retained, not rejected), and the comparator returns equal for
equal versions, so every discovered set yields a totally ordered list. -/
theorem construction_sort_ascending (ms : List Migration) :
    List.Pairwise (fun a b => a.version ≤ b.version) (sortMigrations ms) ∧
    (sortMigrations ms).Perm ms ∧
    (∀ a b : Migration, a.version = b.version → migrationComparator a b = 0) := by
  refine ⟨?_, List.mergeSort_perm ms _, fun a b h => comparator_eq_zero_of_eq a b h⟩
  have trans : ∀ a b c : Migration,
      decide (migrationComparator a b ≤ 0) = true →
      decide (migrationComparator b c ≤ 0) = true →
      decide (migrationComparator a c ≤ 0) = true := by
    intro a b c hab hbc
    rw [decide_eq_true_eq, comparator_le_zero] at *
    omega
  have total : ∀ a b : Migration,
      (decide (migrationComparator a b ≤ 0) ||
        decide (migrationComparator b a ≤ 0)) = true := by
    intro a b
    rw [Bool.or_eq_true, decide_eq_true_eq, decide_eq_true_eq,
      comparator_le_zero, comparator_le_zero]
    omega
  have h := List.sorted_mergeSort trans total ms
  refine h.imp ?_
  intro a b hab
  rw [decide_eq_true_eq, comparator_le_zero] at hab
  exact hab

/-- C1: with no failed record stored, `pending()` returns exactly the
discovered migrations whose version matches no stored record (set
difference by version), as a subsequence of the discovered list, so the
ascending discovery order is preserved. -/
theorem pending_is_set_difference (migrations : List Migration) (st : Store)
    (hs : List.Pairwise (fun a b => a.version ≤ b.version) migrations)
    (hnf : ∀ r ∈ st, r.status ≠ Status.failed) :
    ∃ l, (pending migrations st).1 = Except.ok l ∧
      (∀ m : Migration, m ∈ l ↔ m ∈ migrations ∧ ∀ r ∈ st, r.version ≠ m.version) ∧
      l.Sublist migrations ∧
      List.Pairwise (fun a b => a.version ≤ b.version) l := by
  refine ⟨pendingList migrations st, ?_, fun m => mem_pendingList migrations st m,
    List.filter_sublist migrations, hs.filter _⟩
  simp [pending, retrieveAllMigrationRecords, findFailed_eq_none st hnf]

/-- Witness for C1: two discovered migrations, one already recorded. -/
theorem pending_is_set_difference_witness :
    ∃ l, (pending [mkMigration 1, mkMigration 2] [⟨1, Status.completed⟩]).1 =
        Except.ok l ∧
      (∀ m : Migration, m ∈ l ↔ m ∈ [mkMigration 1, mkMigration 2] ∧
        ∀ r ∈ ([⟨1, Status.completed⟩] : Store), r.version ≠ m.version) ∧
      l.Sublist [mkMigration 1, mkMigration 2] ∧
      List.Pairwise (fun a b => a.version ≤ b.version) l :=
  pending_is_set_difference [mkMigration 1, mkMigration 2] [⟨1, Status.completed⟩]
    (by decide) (by decide)

/-- C2: with a failed record stored, `pending()` fails with the
failed-migration-detected condition identifying a stored failed record,
and `executePendingMigrations` fails the same way while performing only
the two record reads: no hook is invoked and no record is written. -/
theorem failed_record_halts (mgr : Manager) (tenants : List Nat) (st : Store)
    (hran : mgr.ran = false)
    (hf : ∃ r ∈ st, r.status = Status.failed) :
    ∃ r ∈ st, r.status = Status.failed ∧
      (pending mgr.migrations st).1 = Except.error (Err.failedMigrationDetected r) ∧
      executePendingMigrations mgr tenants st =
        (Except.error (Err.failedMigrationDetected r), { mgr with ran := true }, st,
         [Event.readRecords, Event.readRecords]) := by
  obtain ⟨r, hr⟩ := findFailed_isSome st hf
  obtain ⟨hmem, hstat⟩ := findFailed_mem_and_failed st r hr
  refine ⟨r, hmem, hstat, ?_, ?_⟩
  · simp [pending, retrieveAllMigrationRecords, hr]
  · simp [executePendingMigrations, hran, currentMigration,
      retrieveAllMigrationRecords, pending, hr]

/-- Witness for C2: a store holding one failed record. -/
theorem failed_record_halts_witness :
    ∃ r ∈ ([⟨3, Status.failed⟩] : Store), r.status = Status.failed ∧
      (pending (Manager.mk [mkMigration 3] false).migrations
        [⟨3, Status.failed⟩]).1 = Except.error (Err.failedMigrationDetected r) ∧
      executePendingMigrations (Manager.mk [mkMigration 3] false) [0]
          [⟨3, Status.failed⟩] =
        (Except.error (Err.failedMigrationDetected r),
         { Manager.mk [mkMigration 3] false with ran := true },
         [⟨3, Status.failed⟩],
         [Event.readRecords, Event.readRecords]) :=
  failed_record_halts (Manager.mk [mkMigration 3] false) [0] [⟨3, Status.failed⟩]
    rfl ⟨⟨3, Status.failed⟩, by decide, rfl⟩

/-- C6: after one invocation of either entry point — whatever its outcome —
any second invocation of either entry point returns the already-executed
fault with the manager, store and trace untouched: no record reads or
writes and no hook invocations beyond the fault itself. -/
theorem second_invocation_faults (mgr : Manager) (st₁ st₂ : Store)
    (tenants₁ tenants₂ : List Nat) :
    (skipPendingMigrations (skipPendingMigrations mgr st₁).2.1 st₂ =
      (Except.error Err.alreadyRan, (skipPendingMigrations mgr st₁).2.1, st₂, [])) ∧
    (executePendingMigrations (skipPendingMigrations mgr st₁).2.1 tenants₂ st₂ =
      (Except.error Err.alreadyRan, (skipPendingMigrations mgr st₁).2.1, st₂, [])) ∧
    (skipPendingMigrations (executePendingMigrations mgr tenants₁ st₁).2.1 st₂ =
      (Except.error Err.alreadyRan,
       (executePendingMigrations mgr tenants₁ st₁).2.1, st₂, [])) ∧
    (executePendingMigrations (executePendingMigrations mgr tenants₁ st₁).2.1
        tenants₂ st₂ =
      (Except.error Err.alreadyRan,
       (executePendingMigrations mgr tenants₁ st₁).2.1, st₂, [])) :=
  ⟨skip_already_ran _ _ (ran_after_skip mgr st₁),
   exec_already_ran _ _ _ (ran_after_skip mgr st₁),
   skip_already_ran _ _ (ran_after_exec mgr tenants₁ st₁),
   exec_already_ran _ _ _ (ran_after_exec mgr tenants₁ st₁)⟩

/-- C7: on an empty record store, `skipPendingMigrations` succeeds after
one read and one bulk write that creates exactly one skipped record per
discovered migration, invoking no hook; on a non-empty store it faults and
leaves the store untouched. -/
theorem skip_on_empty_store (mgr : Manager) (st : Store)
    (hran : mgr.ran = false) :
    (st = [] →
      skipPendingMigrations mgr st =
        (Except.ok (), { mgr with ran := true },
         mgr.migrations.map (fun m => ⟨m.version, Status.skipped⟩),
         [Event.readRecords,
          Event.writeSkipped (mgr.migrations.map Migration.version)])) ∧
    (st ≠ [] →
      (skipPendingMigrations mgr st).1 = Except.error Err.skipOnNonEmptyStore ∧
      (skipPendingMigrations mgr st).2.2.1 = st) := by
  constructor
  · rintro rfl
    simp [skipPendingMigrations, hran, currentMigration,
      retrieveAllMigrationRecords, createSkippedMigrationRecords]
  · intro hne
    obtain ⟨r, hr⟩ : ∃ r, st.getLast? = some r := by
      cases h : st.getLast? with
      | none => exact absurd (List.getLast?_eq_none_iff.mp h) hne
      | some r => exact ⟨r, rfl⟩
    simp [skipPendingMigrations, hran, currentMigration,
      retrieveAllMigrationRecords, hr]

/-- Witness for C7: two discovered migrations over an empty store. -/
theorem skip_on_empty_store_witness :
    skipPendingMigrations (Manager.mk [mkMigration 1, mkMigration 2] false) [] =
      (Except.ok (), Manager.mk [mkMigration 1, mkMigration 2] true,
       [⟨1, Status.skipped⟩, ⟨2, Status.skipped⟩],
       [Event.readRecords, Event.writeSkipped [1, 2]]) :=
  (skip_on_empty_store (Manager.mk [mkMigration 1, mkMigration 2] false) []
    rfl).1 rfl

/-- C10: `skipPendingMigrations` marks the instance as ran before checking
that the store is empty, so a skip attempt that faults on a non-empty
store still consumes the instance: it writes nothing, and every subsequent
call to either entry point faults with the already-executed error. -/
theorem skip_fault_consumes_instance (mgr : Manager) (st : Store)
    (hran : mgr.ran = false) (hne : st ≠ []) :
    (skipPendingMigrations mgr st).1 = Except.error Err.skipOnNonEmptyStore ∧
    (skipPendingMigrations mgr st).2.2.1 = st ∧
    (skipPendingMigrations mgr st).2.2.2 = [Event.readRecords] ∧
    (skipPendingMigrations mgr st).2.1.ran = true ∧
    (∀ st' : Store,
      skipPendingMigrations (skipPendingMigrations mgr st).2.1 st' =
        (Except.error Err.alreadyRan, (skipPendingMigrations mgr st).2.1, st', [])) ∧
    (∀ (tenants : List Nat) (st' : Store),
      executePendingMigrations (skipPendingMigrations mgr st).2.1 tenants st' =
        (Except.error Err.alreadyRan, (skipPendingMigrations mgr st).2.1, st', [])) := by
  obtain ⟨r, hr⟩ : ∃ r, st.getLast? = some r := by
    cases h : st.getLast? with
    | none => exact absurd (List.getLast?_eq_none_iff.mp h) hne
    | some r => exact ⟨r, rfl⟩
  have hskip : skipPendingMigrations mgr st =
      (Except.error Err.skipOnNonEmptyStore, { mgr with ran := true }, st,
       [Event.readRecords]) := by
    simp [skipPendingMigrations, hran, currentMigration,
      retrieveAllMigrationRecords, hr]
  rw [hskip]
  exact ⟨rfl, rfl, rfl, rfl,
    fun st' => skip_already_ran _ st' rfl,
    fun tenants st' => exec_already_ran _ tenants st' rfl⟩

/-- Witness for C10: a fresh manager and a store with one completed
record. -/
theorem skip_fault_consumes_instance_witness :
    (skipPendingMigrations (Manager.mk [mkMigration 1] false)
      [⟨1, Status.completed⟩]).1 = Except.error Err.skipOnNonEmptyStore ∧
    (skipPendingMigrations (Manager.mk [mkMigration 1] false)
      [⟨1, Status.completed⟩]).2.2.1 = [⟨1, Status.completed⟩] ∧
    (skipPendingMigrations (Manager.mk [mkMigration 1] false)
      [⟨1, Status.completed⟩]).2.2.2 = [Event.readRecords] ∧
    (skipPendingMigrations (Manager.mk [mkMigration 1] false)
      [⟨1, Status.completed⟩]).2.1.ran = true ∧
    (∀ st' : Store,
      skipPendingMigrations (skipPendingMigrations (Manager.mk [mkMigration 1] false)
          [⟨1, Status.completed⟩]).2.1 st' =
        (Except.error Err.alreadyRan,
         (skipPendingMigrations (Manager.mk [mkMigration 1] false)
           [⟨1, Status.completed⟩]).2.1, st', [])) ∧
    (∀ (tenants : List Nat) (st' : Store),
      executePendingMigrations
          (skipPendingMigrations (Manager.mk [mkMigration 1] false)
            [⟨1, Status.completed⟩]).2.1 tenants st' =
        (Except.error Err.alreadyRan,
         (skipPendingMigrations (Manager.mk [mkMigration 1] false)
           [⟨1, Status.completed⟩]).2.1, st', [])) :=
  skip_fault_consumes_instance (Manager.mk [mkMigration 1] false)
    [⟨1, Status.completed⟩] rfl (by decide)

/-- C9: with a tenant source yielding zero tenants,
`executePendingMigrations` succeeds, writes a completed record for every
pending migration in order, and invokes no `up`, `test` or `down` hook. -/
theorem zero_tenants_completes_all (mgr : Manager) (st : Store)
    (hran : mgr.ran = false) (hnf : ∀ r ∈ st, r.status ≠ Status.failed) :
    (executePendingMigrations mgr [] st).1 = Except.ok () ∧
    (executePendingMigrations mgr [] st).2.2.1 =
      st ++ (pendingList mgr.migrations st).map
        (fun m => ⟨m.version, Status.completed⟩) ∧
    ∀ e ∈ (executePendingMigrations mgr [] st).2.2.2, hookVersion e = none := by
  obtain ⟨tail, htail, _, heq⟩ :=
    exec_reduces mgr [] st hran (findFailed_eq_none st hnf)
  have hrun := runMigrations_all_ok [] (pendingList mgr.migrations st) st
    (fun m _ t ht => absurd ht (List.not_mem_nil t))
  rw [heq, hrun]
  refine ⟨rfl, rfl, ?_⟩
  intro e he
  rcases List.mem_cons.mp he with rfl | he
  · rfl
  rcases List.mem_cons.mp he with rfl | he
  · rfl
  rcases List.mem_append.mp he with he | he
  · rcases List.mem_flatMap.mp he with ⟨m, _, hm⟩
    rcases (by simpa [fullTrace, tenantTrace] using hm :
        e = Event.writeCompleted m.version) with rfl
    rfl
  · rw [htail e he]
    rfl

/-- Witness for C9: two pending migrations and no tenants. -/
theorem zero_tenants_completes_all_witness :
    (executePendingMigrations (Manager.mk [mkMigration 1, mkMigration 2] false)
      [] []).1 = Except.ok () ∧
    (executePendingMigrations (Manager.mk [mkMigration 1, mkMigration 2] false)
      [] []).2.2.1 =
      [] ++ (pendingList (Manager.mk [mkMigration 1, mkMigration 2] false).migrations
        []).map (fun m => ⟨m.version, Status.completed⟩) ∧
    ∀ e ∈ (executePendingMigrations (Manager.mk [mkMigration 1, mkMigration 2] false)
      [] []).2.2.2, hookVersion e = none :=
  zero_tenants_completes_all (Manager.mk [mkMigration 1, mkMigration 2] false) []
    rfl (by decide)

/-! ### Trace-shape lemmas for the temporal claims -/

lemma mem_tenantEvents (m : Migration) (t : Nat) (e : Event)
    (he : e ∈ tenantEvents m t) :
    e = Event.upCall m.version t ∨ e = Event.testCall m.version t := by
  unfold tenantEvents at he
  cases ht : m.testHook with
  | none =>
    rw [ht] at he
    exact Or.inl (List.mem_singleton.mp he)
  | some f =>
    rw [ht] at he
    rcases List.mem_cons.mp he with rfl | he'
    · exact Or.inl rfl
    · exact Or.inr (List.mem_singleton.mp he')

lemma mem_tenantTrace_shape (m : Migration) (ts : List Nat) (e : Event)
    (he : e ∈ tenantTrace m ts) :
    ∃ t ∈ ts, e = Event.upCall m.version t ∨ e = Event.testCall m.version t := by
  rcases List.mem_flatMap.mp he with ⟨t, ht, hte⟩
  exact ⟨t, ht, mem_tenantEvents m t e hte⟩

lemma mem_tenantTrace_up (m : Migration) (ts : List Nat) (t : Nat) (ht : t ∈ ts) :
    Event.upCall m.version t ∈ tenantTrace m ts :=
  List.mem_flatMap.mpr ⟨t, ht, List.mem_cons_self _ _⟩

lemma mem_tenantTrace_test (m : Migration) (ts : List Nat) (t : Nat) (ht : t ∈ ts)
    (h : m.testHook.isSome = true) :
    Event.testCall m.version t ∈ tenantTrace m ts := by
  refine List.mem_flatMap.mpr ⟨t, ht, ?_⟩
  unfold tenantEvents
  cases hth : m.testHook with
  | none => rw [hth] at h; simp at h
  | some f => simp

lemma mem_fullTrace_shape (ts : List Nat) (m : Migration) (e : Event)
    (he : e ∈ fullTrace ts m) :
    e = Event.writeCompleted m.version ∨
      ∃ t ∈ ts, e = Event.upCall m.version t ∨ e = Event.testCall m.version t := by
  rcases List.mem_append.mp he with h1 | h1
  · exact Or.inr (mem_tenantTrace_shape m ts e h1)
  · exact Or.inl (List.mem_singleton.mp h1)

lemma completedVersion_of_fullTrace (ts : List Nat) (m : Migration) (e : Event)
    (he : e ∈ fullTrace ts m) (v : Nat) (hv : completedVersion e = some v) :
    e = Event.writeCompleted m.version ∧ v = m.version := by
  rcases mem_fullTrace_shape ts m e he with rfl | ⟨t, _, rfl | rfl⟩
  · exact ⟨rfl, (Option.some.inj hv).symm⟩
  · simp [completedVersion] at hv
  · simp [completedVersion] at hv

lemma hookVersion_of_fullTrace (ts : List Nat) (m : Migration) (e : Event)
    (he : e ∈ fullTrace ts m) (v : Nat) (hv : hookVersion e = some v) :
    v = m.version := by
  rcases mem_fullTrace_shape ts m e he with rfl | ⟨t, _, rfl | rfl⟩
  · simp [hookVersion] at hv
  · exact (Option.some.inj hv).symm
  · exact (Option.some.inj hv).symm

lemma completed_of_fullTrace (ts : List Nat) (m : Migration) :
    (fullTrace ts m).filterMap completedVersion = [m.version] := by
  unfold fullTrace
  rw [List.filterMap_append]
  have h1 : (tenantTrace m ts).filterMap completedVersion = [] := by
    rw [List.filterMap_eq_nil_iff]
    intro e he
    rcases mem_tenantTrace_shape m ts e he with ⟨t, _, rfl | rfl⟩ <;> rfl
  rw [h1]
  rfl

lemma completed_of_segments (ts : List Nat) :
    ∀ ps : List Migration,
      (ps.flatMap (fullTrace ts)).filterMap completedVersion =
        ps.map Migration.version := by
  intro ps
  induction ps with
  | nil => rfl
  | cons m ms ih =>
    rw [List.flatMap_cons, List.filterMap_append, completed_of_fullTrace, ih]
    rfl

lemma mem_left_of_eq_append {α : Type} {A B l₁ l₂ : List α} {x e : α}
    (h : A ++ B = l₁ ++ e :: l₂) (hx : x ∈ A) (he : e ∉ A) : x ∈ l₁ := by
  rcases List.append_eq_append_iff.mp h with ⟨a', ha₁, _⟩ | ⟨c', hc₁, hc₂⟩
  · rw [ha₁]
    exact List.mem_append_left a' hx
  · cases c' with
    | nil =>
      rw [List.append_nil] at hc₁
      rw [← hc₁]
      exact hx
    | cons y c'' =>
      rw [List.cons_append] at hc₂
      obtain ⟨hy, -⟩ := List.cons.inj hc₂
      exfalso
      apply he
      rw [hc₁, hy]
      exact List.mem_append_right l₁ (List.mem_cons_self _ _)

lemma runMigrations_shape (ts : List Nat) :
    ∀ (ps : List Migration) (st : Store),
      ∃ k rest, k ≤ ps.length ∧
        (∀ m ∈ ps.take k, ∀ t ∈ ts, succeedsB m t = true) ∧
        (runMigrations ts ps st).2.2 = (ps.take k).flatMap (fullTrace ts) ++ rest ∧
        (rest = [] ∨ ∃ m, ps[k]? = some m ∧ ∀ e ∈ rest, eventOf m e) := by
  intro ps
  induction ps with
  | nil =>
    intro st
    exact ⟨0, [], Nat.le_refl 0, by simp, by simp [runMigrations], Or.inl rfl⟩
  | cons m ms ih =>
    intro st
    by_cases hall : ∀ t ∈ ts, succeedsB m t = true
    · obtain ⟨k, rest, hk, hsucc, htr, hrest⟩ :=
        ih (st ++ [⟨m.version, Status.completed⟩])
      refine ⟨k + 1, rest, Nat.succ_le_succ hk, ?_, ?_, ?_⟩
      · intro m' hm' t ht
        rw [List.take_succ_cons] at hm'
        rcases List.mem_cons.mp hm' with rfl | hm''
        · exact hall t ht
        · exact hsucc m' hm'' t ht
      · have h1 := runMigration_ok ts m st hall
        simp only [runMigrations, h1, List.take_succ_cons, List.flatMap_cons]
        rw [htr]
        simp [List.append_assoc]
      · rw [List.getElem?_cons_succ]
        exact hrest
    · obtain ⟨err, st', evs, he, hevs⟩ := runMigration_error_events ts m st hall
      refine ⟨0, evs, Nat.zero_le _, by simp, ?_, Or.inr ⟨m, by simp, hevs⟩⟩
      simp [runMigrations, he]

lemma exec_shape (mgr : Manager) (tenants : List Nat) (st : Store)
    (hran : mgr.ran = false) (hnf : ∀ r ∈ st, r.status ≠ Status.failed) :
    ∃ k rest tail,
      k ≤ (pendingList mgr.migrations st).length ∧
      (∀ m ∈ (pendingList mgr.migrations st).take k, ∀ t ∈ tenants,
        succeedsB m t = true) ∧
      (∀ e ∈ tail, e = Event.readRecords) ∧
      (executePendingMigrations mgr tenants st).2.2.2 =
        Event.readRecords :: Event.readRecords ::
          (((pendingList mgr.migrations st).take k).flatMap (fullTrace tenants) ++
            (rest ++ tail)) ∧
      (rest = [] ∨ ∃ m, (pendingList mgr.migrations st)[k]? = some m ∧
        ∀ e ∈ rest, eventOf m e) := by
  obtain ⟨tail, htail, _, heq⟩ :=
    exec_reduces mgr tenants st hran (findFailed_eq_none st hnf)
  obtain ⟨k, rest, hk, hsucc, htr, hrest⟩ :=
    runMigrations_shape tenants (pendingList mgr.migrations st) st
  refine ⟨k, rest, tail, hk, hsucc, htail, ?_, hrest⟩
  rw [heq]
  simp only []
  rw [htr]
  simp [List.append_assoc]

lemma sorted_version_index {ps : List Migration}
    (hps : List.Pairwise (fun a b => a.version < b.version) ps)
    {i j : Nat} (hi : i < ps.length) (hj : j < ps.length)
    (hv : ps[i].version = ps[j].version) : i = j := by
  rcases Nat.lt_trichotomy i j with h | h | h
  · have := List.pairwise_iff_getElem.mp hps i j hi hj h
    omega
  · exact h
  · have := List.pairwise_iff_getElem.mp hps j i hj hi h
    omega

lemma wc_mem_flatMap {ts : List Nat} {qs : List Migration} {v : Nat}
    (h : Event.writeCompleted v ∈ qs.flatMap (fullTrace ts)) :
    ∃ m ∈ qs, m.version = v := by
  rcases List.mem_flatMap.mp h with ⟨m, hm, hin⟩
  rcases mem_fullTrace_shape ts m _ hin with heq | ⟨t, _, heq | heq⟩
  · exact ⟨m, hm, (Event.writeCompleted.inj heq).symm⟩
  · exact Event.noConfusion heq
  · exact Event.noConfusion heq

lemma hook_mem_flatMap {ts : List Nat} {qs : List Migration} {e : Event} {v : Nat}
    (h : e ∈ qs.flatMap (fullTrace ts)) (hv : hookVersion e = some v) :
    ∃ m ∈ qs, m.version = v := by
  rcases List.mem_flatMap.mp h with ⟨m, hm, hin⟩
  exact ⟨m, hm, (hookVersion_of_fullTrace ts m e hin v hv).symm⟩

lemma take_decompose (ps : List Migration) (k j : Nat) (hj : j < k)
    (hjl : j < ps.length) :
    ps.take k = ps.take j ++ ps[j] :: (ps.take k).drop (j + 1) := by
  have hlen : j < (ps.take k).length := by
    rw [List.length_take]
    omega
  have h2 : (ps.take k).drop j =
      (ps.take k)[j] :: (ps.take k).drop (j + 1) :=
    List.drop_eq_getElem_cons hlen
  have h3 : (ps.take k)[j] = ps[j] := List.getElem_take ps
  calc ps.take k = (ps.take k).take j ++ (ps.take k).drop j :=
        (List.take_append_drop j (ps.take k)).symm
    _ = ps.take j ++ (ps.take k).drop j := by
        rw [List.take_take, Nat.min_eq_left (Nat.le_of_lt hj)]
    _ = ps.take j ++ ps[j] :: (ps.take k).drop (j + 1) := by
        rw [h2, h3]

lemma take_split_at (ps : List Migration) (k n : Nat) (hn : n ≤ k) :
    ps.take k = ps.take n ++ (ps.take k).drop n := by
  calc ps.take k = (ps.take k).take n ++ (ps.take k).drop n :=
        (List.take_append_drop n (ps.take k)).symm
    _ = ps.take n ++ (ps.take k).drop n := by
        rw [List.take_take, Nat.min_eq_left hn]

/-- C3: during `executePendingMigrations`, the completed-record writes are
exactly those of a prefix of the pending list in strictly ascending
version order (so pending migrations execute strictly in ascending version
order); a completed record for a pending migration is written only after
`up` (and `test`, when exposed) has been invoked and has succeeded for
every tenant the source yields, with every such hook invocation preceding
the write; and no hook of the next pending migration is invoked before
the previous pending migration's completed record has been written. -/
theorem completed_record_temporal_ordering (mgr : Manager) (tenants : List Nat)
    (st : Store) (hran : mgr.ran = false)
    (hnf : ∀ r ∈ st, r.status ≠ Status.failed)
    (hsorted : List.Pairwise (fun a b => a.version < b.version) mgr.migrations) :
    (∃ k, k ≤ (pendingList mgr.migrations st).length ∧
      ((executePendingMigrations mgr tenants st).2.2.2).filterMap completedVersion =
        ((pendingList mgr.migrations st).take k).map Migration.version) ∧
    List.Pairwise (fun a b => a < b)
      (((executePendingMigrations mgr tenants st).2.2.2).filterMap
        completedVersion) ∧
    (∀ (l₁ l₂ : List Event) (m : Migration), m ∈ pendingList mgr.migrations st →
      (executePendingMigrations mgr tenants st).2.2.2 =
        l₁ ++ Event.writeCompleted m.version :: l₂ →
      ∀ t ∈ tenants, succeedsB m t = true ∧ Event.upCall m.version t ∈ l₁ ∧
        (m.testHook.isSome = true → Event.testCall m.version t ∈ l₁)) ∧
    (∀ (i : Nat) (hi : i + 1 < (pendingList mgr.migrations st).length)
        (l₁ l₂ : List Event) (e : Event),
      (executePendingMigrations mgr tenants st).2.2.2 = l₁ ++ e :: l₂ →
      hookVersion e = some (pendingList mgr.migrations st)[i + 1].version →
      Event.writeCompleted (pendingList mgr.migrations st)[i].version ∈ l₁) := by
  have hps : List.Pairwise (fun a b => a.version < b.version)
      (pendingList mgr.migrations st) := hsorted.filter _
  obtain ⟨k, rest, tail, hk, hsucc, htail, htr, hrest⟩ :=
    exec_shape mgr tenants st hran hnf
  have hrest_cv : ∀ e ∈ rest, completedVersion e = none := by
    rcases hrest with rfl | ⟨m0, _, hm0⟩
    · intro e he
      exact absurd he (List.not_mem_nil e)
    · intro e he
      exact (hm0 e he).1
  have hcv : ((executePendingMigrations mgr tenants st).2.2.2).filterMap
      completedVersion =
      ((pendingList mgr.migrations st).take k).map Migration.version := by
    have h1 : rest.filterMap completedVersion = [] :=
      List.filterMap_eq_nil_iff.mpr hrest_cv
    have h2 : tail.filterMap completedVersion = [] :=
      List.filterMap_eq_nil_iff.mpr (fun e he => by rw [htail e he]; rfl)
    rw [htr, List.filterMap_cons_none rfl, List.filterMap_cons_none rfl,
      List.filterMap_append, List.filterMap_append,
      completed_of_segments tenants ((pendingList mgr.migrations st).take k),
      h1, h2]
    simp
  refine ⟨⟨k, hk, hcv⟩, ?_, ?_, ?_⟩
  · rw [hcv]
    exact List.Pairwise.map Migration.version (fun a b h => h)
      (List.Pairwise.sublist (List.take_sublist k _) hps)
  · intro l₁ l₂ m hm hsplit t ht
    have hwc : Event.writeCompleted m.version ∈
        (executePendingMigrations mgr tenants st).2.2.2 := by
      rw [hsplit]
      exact List.mem_append_right l₁ (List.mem_cons_self _ _)
    rw [htr] at hwc
    have hwcseg : Event.writeCompleted m.version ∈
        ((pendingList mgr.migrations st).take k).flatMap (fullTrace tenants) := by
      rcases List.mem_cons.mp hwc with h | h
      · simp at h
      rcases List.mem_cons.mp h with h | h
      · simp at h
      rcases List.mem_append.mp h with h | h
      · exact h
      rcases List.mem_append.mp h with h | h
      · have := hrest_cv _ h
        simp [completedVersion] at this
      · have := htail _ h
        simp at this
    obtain ⟨m', hm'tk, hm'v⟩ := wc_mem_flatMap hwcseg
    obtain ⟨j, hjm, hjget⟩ := List.mem_take_iff_getElem.mp hm'tk
    have hjk : j < k := Nat.lt_of_lt_of_le hjm (Nat.min_le_left _ _)
    have hjlen : j < (pendingList mgr.migrations st).length :=
      Nat.lt_of_lt_of_le hjm (Nat.min_le_right _ _)
    obtain ⟨i0, hi0, hi0get⟩ := List.mem_iff_getElem.mp hm
    have hveq : (pendingList mgr.migrations st)[j].version =
        (pendingList mgr.migrations st)[i0].version := by
      rw [hjget, hi0get]
      exact hm'v
    have hji : j = i0 := sorted_version_index hps hjlen hi0 hveq
    have hgetm : (pendingList mgr.migrations st)[j] = m := by
      subst hji
      exact hi0get
    have hm_tk : m ∈ (pendingList mgr.migrations st).take k := by
      rw [← hgetm]
      exact List.mem_take_iff_getElem.mpr ⟨j, hjm, rfl⟩
    have htake := take_decompose (pendingList mgr.migrations st) k j hjk hjlen
    rw [hgetm] at htake
    have key : ((pendingList mgr.migrations st).take k).flatMap (fullTrace tenants) =
        ((pendingList mgr.migrations st).take j).flatMap (fullTrace tenants) ++
          (tenantTrace m tenants ++ (Event.writeCompleted m.version ::
            ((((pendingList mgr.migrations st).take k).drop (j + 1)).flatMap
              (fullTrace tenants)))) := by
      conv_lhs => rw [htake]
      simp [List.flatMap_cons, List.flatMap_append, fullTrace, List.append_assoc]
    have htr2 : (executePendingMigrations mgr tenants st).2.2.2 =
        (Event.readRecords :: Event.readRecords ::
          (((pendingList mgr.migrations st).take j).flatMap (fullTrace tenants) ++
            tenantTrace m tenants)) ++
        (Event.writeCompleted m.version ::
          (((((pendingList mgr.migrations st).take k).drop (j + 1)).flatMap
            (fullTrace tenants)) ++ (rest ++ tail))) := by
      rw [htr, key]
      simp [List.append_assoc]
    have hA_no : Event.writeCompleted m.version ∉
        (Event.readRecords :: Event.readRecords ::
          (((pendingList mgr.migrations st).take j).flatMap (fullTrace tenants) ++
            tenantTrace m tenants)) := by
      intro hmem
      rcases List.mem_cons.mp hmem with h | h
      · simp at h
      rcases List.mem_cons.mp h with h | h
      · simp at h
      rcases List.mem_append.mp h with h | h
      · obtain ⟨m'', hm''tj, hv''⟩ := wc_mem_flatMap h
        obtain ⟨j2, hj2, hj2get⟩ := List.mem_take_iff_getElem.mp hm''tj
        have hj2j : j2 < j := Nat.lt_of_lt_of_le hj2 (Nat.min_le_left _ _)
        have hj2len : j2 < (pendingList mgr.migrations st).length :=
          Nat.lt_of_lt_of_le hj2 (Nat.min_le_right _ _)
        have hveq2 : (pendingList mgr.migrations st)[j2].version =
            (pendingList mgr.migrations st)[j].version := by
          rw [hj2get, hgetm]
          exact hv''
        have := sorted_version_index hps hj2len hjlen hveq2
        omega
      · rcases mem_tenantTrace_shape m tenants _ h with ⟨t', _, heq | heq⟩
        · exact Event.noConfusion heq
        · exact Event.noConfusion heq
    refine ⟨hsucc m hm_tk t ht, ?_, ?_⟩
    · refine mem_left_of_eq_append (htr2.symm.trans hsplit) ?_ hA_no
      exact List.mem_cons_of_mem _ (List.mem_cons_of_mem _
        (List.mem_append_right _ (mem_tenantTrace_up m tenants t ht)))
    · intro hts
      refine mem_left_of_eq_append (htr2.symm.trans hsplit) ?_ hA_no
      exact List.mem_cons_of_mem _ (List.mem_cons_of_mem _
        (List.mem_append_right _ (mem_tenantTrace_test m tenants t ht hts)))
  · intro i hi l₁ l₂ e hsplit hv
    have hilen : i < (pendingList mgr.migrations st).length := Nat.lt_of_succ_lt hi
    have hetr : e ∈ (executePendingMigrations mgr tenants st).2.2.2 := by
      rw [hsplit]
      exact List.mem_append_right l₁ (List.mem_cons_self _ _)
    rw [htr] at hetr
    have hne_rr : e ≠ Event.readRecords := by
      intro h
      rw [h] at hv
      simp [hookVersion] at hv
    have he1 : e ∈ ((pendingList mgr.migrations st).take k).flatMap
        (fullTrace tenants) ∨ e ∈ rest := by
      rcases List.mem_cons.mp hetr with h | h
      · exact absurd h hne_rr
      rcases List.mem_cons.mp h with h | h
      · exact absurd h hne_rr
      rcases List.mem_append.mp h with h | h
      · exact Or.inl h
      rcases List.mem_append.mp h with h | h
      · exact Or.inr h
      · exact absurd (htail e h) hne_rr
    have hik : i + 1 ≤ k := by
      rcases he1 with h | h
      · obtain ⟨m', hm'tk, hv'⟩ := hook_mem_flatMap h hv
        obtain ⟨j2, hj2, hj2get⟩ := List.mem_take_iff_getElem.mp hm'tk
        have hj2k : j2 < k := Nat.lt_of_lt_of_le hj2 (Nat.min_le_left _ _)
        have hj2len : j2 < (pendingList mgr.migrations st).length :=
          Nat.lt_of_lt_of_le hj2 (Nat.min_le_right _ _)
        have hveq : (pendingList mgr.migrations st)[j2].version =
            (pendingList mgr.migrations st)[i + 1].version := by
          rw [hj2get]
          exact hv'
        have := sorted_version_index hps hj2len hi hveq
        omega
      · rcases hrest with rfl | ⟨m', hm'k, hm'ev⟩
        · exact absurd h (List.not_mem_nil e)
        · have hvv := (hm'ev e h).2 _ hv
          obtain ⟨hklen, hkget⟩ := List.getElem?_eq_some_iff.mp hm'k
          have hveq : (pendingList mgr.migrations st)[i + 1].version =
              (pendingList mgr.migrations st)[k].version := by
            rw [hkget]
            exact hvv
          have := sorted_version_index hps hi hklen hveq
          omega
    have hmid := take_split_at (pendingList mgr.migrations st) k (i + 1) hik
    have key : ((pendingList mgr.migrations st).take k).flatMap (fullTrace tenants) =
        ((pendingList mgr.migrations st).take (i + 1)).flatMap (fullTrace tenants) ++
          (((pendingList mgr.migrations st).take k).drop (i + 1)).flatMap
            (fullTrace tenants) := by
      conv_lhs => rw [hmid]
      rw [List.flatMap_append]
    have htr2 : (executePendingMigrations mgr tenants st).2.2.2 =
        (Event.readRecords :: Event.readRecords ::
          ((pendingList mgr.migrations st).take (i + 1)).flatMap
            (fullTrace tenants)) ++
        ((((pendingList mgr.migrations st).take k).drop (i + 1)).flatMap
          (fullTrace tenants) ++ (rest ++ tail)) := by
      rw [htr, key]
      simp [List.append_assoc]
    have hxA : Event.writeCompleted (pendingList mgr.migrations st)[i].version ∈
        (Event.readRecords :: Event.readRecords ::
          ((pendingList mgr.migrations st).take (i + 1)).flatMap
            (fullTrace tenants)) := by
      refine List.mem_cons_of_mem _ (List.mem_cons_of_mem _ ?_)
      refine List.mem_flatMap.mpr ⟨(pendingList mgr.migrations st)[i], ?_, ?_⟩
      · exact List.mem_take_iff_getElem.mpr
          ⟨i, Nat.lt_min.mpr ⟨Nat.lt_succ_self i, hilen⟩, rfl⟩
      · unfold fullTrace
        exact List.mem_append_right _ (List.mem_singleton.mpr rfl)
    have hA_no : e ∉
        (Event.readRecords :: Event.readRecords ::
          ((pendingList mgr.migrations st).take (i + 1)).flatMap
            (fullTrace tenants)) := by
      intro hmem
      rcases List.mem_cons.mp hmem with h | h
      · exact hne_rr h
      rcases List.mem_cons.mp h with h | h
      · exact hne_rr h
      · obtain ⟨m'', hm''t, hv''⟩ := hook_mem_flatMap h hv
        obtain ⟨j3, hj3, hj3get⟩ := List.mem_take_iff_getElem.mp hm''t
        have hj3i : j3 < i + 1 := Nat.lt_of_lt_of_le hj3 (Nat.min_le_left _ _)
        have hj3len : j3 < (pendingList mgr.migrations st).length :=
          Nat.lt_of_lt_of_le hj3 (Nat.min_le_right _ _)
        have hveq : (pendingList mgr.migrations st)[j3].version =
            (pendingList mgr.migrations st)[i + 1].version := by
          rw [hj3get]
          exact hv''
        have := sorted_version_index hps hj3len hi hveq
        omega
    exact mem_left_of_eq_append (htr2.symm.trans hsplit) hxA hA_no

/-! ### Lemmas for the failing-tenant claims -/

lemma runMigrations_append_ok (ts : List Nat) (ps₁ qs : List Migration) :
    ∀ st, (∀ m ∈ ps₁, ∀ t ∈ ts, succeedsB m t = true) →
      runMigrations ts (ps₁ ++ qs) st =
        ((runMigrations ts qs
            (st ++ ps₁.map (fun m => ⟨m.version, Status.completed⟩))).1,
         (runMigrations ts qs
            (st ++ ps₁.map (fun m => ⟨m.version, Status.completed⟩))).2.1,
         ps₁.flatMap (fullTrace ts) ++
           (runMigrations ts qs
            (st ++ ps₁.map (fun m => ⟨m.version, Status.completed⟩))).2.2) := by
  induction ps₁ with
  | nil =>
    intro st _
    simp
  | cons m ms ih =>
    intro st h
    have h1 := runMigration_ok ts m st (h m (List.mem_cons_self m ms))
    simp only [List.cons_append, runMigrations, h1]
    simp only [List.append_eq]
    have h2 := ih (st ++ [MigrationRecord.mk m.version Status.completed])
      (fun m' hm' => h m' (List.mem_cons_of_mem m hm'))
    rw [h2]
    simp [List.flatMap_cons, List.append_assoc]

lemma up_mem_failEvents (m : Migration) (t : Nat) :
    Event.upCall m.version t ∈ failEvents m t := by
  unfold failEvents
  cases hu : m.up t <;> cases hd : m.downHook <;> simp

lemma down_mem_failEvents (m : Migration) (t : Nat)
    (h : m.downHook.isSome = true) :
    Event.downCall m.version t ∈ failEvents m t := by
  unfold failEvents
  cases hd : m.downHook with
  | none => rw [hd] at h; simp at h
  | some d => cases hu : m.up t <;> simp

lemma writeFailed_mem_failEvents (m : Migration) (t : Nat) :
    Event.writeFailed m.version ∈ failEvents m t := by
  unfold failEvents
  cases hu : m.up t <;> cases hd : m.downHook <;> simp

lemma mem_failEvents_shape (m : Migration) (t : Nat) (e : Event)
    (he : e ∈ failEvents m t) :
    e = Event.upCall m.version t ∨ e = Event.testCall m.version t ∨
    e = Event.downCall m.version t ∨ e = Event.writeFailed m.version := by
  unfold failEvents at he
  cases hu : m.up t <;> rw [hu] at he <;> cases hd : m.downHook <;>
    rw [hd] at he <;> simp at he <;> tauto

lemma mem_failEvents_shape_noDown (m : Migration) (t : Nat) (e : Event)
    (hd : m.downHook = none) (he : e ∈ failEvents m t) :
    e = Event.upCall m.version t ∨ e = Event.testCall m.version t ∨
    e = Event.writeFailed m.version := by
  unfold failEvents at he
  rw [hd] at he
  cases hu : m.up t <;> rw [hu] at he <;> simp at he <;> tauto

lemma exec_fail_explicit (mgr : Manager) (tenants : List Nat) (st : Store)
    (ps₁ ps₂ : List Migration) (m : Migration) (pre post : List Nat) (tk : Nat)
    (hran : mgr.ran = false) (hnf : findFailed st = none)
    (hsplit_ps : pendingList mgr.migrations st = ps₁ ++ m :: ps₂)
    (hps₁ : ∀ m' ∈ ps₁, ∀ t ∈ tenants, succeedsB m' t = true)
    (htsplit : tenants = pre ++ tk :: post)
    (hpre : ∀ t ∈ pre, succeedsB m t = true)
    (htk : succeedsB m tk = false)
    (hdown : ∀ d, m.downHook = some d → d tk = none) :
    ∃ e, firstErr m tk = some e ∧
      executePendingMigrations mgr tenants st =
        (Except.error (Err.hookError e), { mgr with ran := true },
         st ++ ps₁.map (fun m' => ⟨m'.version, Status.completed⟩) ++
           [⟨m.version, Status.failed⟩],
         Event.readRecords :: Event.readRecords ::
           (ps₁.flatMap (fullTrace tenants) ++
            (tenantTrace m pre ++ failEvents m tk))) := by
  obtain ⟨e, hfe, hrt⟩ := runTenant_fail_downOk m tk
    (st ++ ps₁.map (fun m' => ⟨m'.version, Status.completed⟩)) htk hdown
  have hrts := runTenants_fail_at m pre tk post
    (st ++ ps₁.map (fun m' => ⟨m'.version, Status.completed⟩)) hpre htk
  rw [hrt] at hrts
  have hrm : runMigration tenants m
      (st ++ ps₁.map (fun m' => ⟨m'.version, Status.completed⟩)) =
      (Except.error (Err.hookError e),
       st ++ ps₁.map (fun m' => ⟨m'.version, Status.completed⟩) ++
         [⟨m.version, Status.failed⟩],
       tenantTrace m pre ++ failEvents m tk) := by
    rw [htsplit]
    simp [runMigration, hrts, List.append_assoc]
  have hcons : runMigrations tenants (m :: ps₂)
      (st ++ ps₁.map (fun m' => ⟨m'.version, Status.completed⟩)) =
      (Except.error (Err.hookError e),
       st ++ ps₁.map (fun m' => ⟨m'.version, Status.completed⟩) ++
         [⟨m.version, Status.failed⟩],
       tenantTrace m pre ++ failEvents m tk) := by
    simp [runMigrations, hrm]
  have hrms := runMigrations_append_ok tenants ps₁ (m :: ps₂) st hps₁
  rw [hcons] at hrms
  obtain ⟨tail, htail, herrtail, heq⟩ :=
    exec_reduces mgr tenants st hran hnf
  have htail0 : tail = [] := by
    refine herrtail (Err.hookError e) ?_
    rw [hsplit_ps, hrms]
  subst htail0
  refine ⟨e, hfe, ?_⟩
  rw [heq, hsplit_ps, hrms]
  simp

lemma hookVersion_of_tenantTrace (m : Migration) (ts : List Nat) (e : Event)
    (he : e ∈ tenantTrace m ts) (v : Nat) (hv : hookVersion e = some v) :
    v = m.version := by
  rcases mem_tenantTrace_shape m ts e he with ⟨t, _, rfl | rfl⟩
  · exact (Option.some.inj hv).symm
  · exact (Option.some.inj hv).symm

lemma hookVersion_of_failEvents (m : Migration) (t : Nat) (e : Event)
    (he : e ∈ failEvents m t) (v : Nat) (hv : hookVersion e = some v) :
    v = m.version := by
  rcases mem_failEvents_shape m t e he with rfl | rfl | rfl | rfl
  · exact (Option.some.inj hv).symm
  · exact (Option.some.inj hv).symm
  · exact (Option.some.inj hv).symm
  · simp [hookVersion] at hv

/-- C4 counterexample: one migration (version 1) whose `up` fails with
error 3 on the first of two tenants and whose exposed `down` itself fails
with error 4.  The claim promises a failed record for version 1 and the
original failure propagating; the code writes no failed record at all and
propagates the `down` error instead. -/
theorem tenant_failure_rollback_counterexample :
    (executePendingMigrations
      (Manager.mk [Migration.mk 1 "m" (fun _ => some 3) none
        (some (fun _ => some 4))] false) [0, 1] []).1 =
      Except.error (Err.hookError 4) ∧
    (executePendingMigrations
      (Manager.mk [Migration.mk 1 "m" (fun _ => some 3) none
        (some (fun _ => some 4))] false) [0, 1] []).1 ≠
      Except.error (Err.hookError 3) ∧
    Event.writeFailed 1 ∉
      (executePendingMigrations
        (Manager.mk [Migration.mk 1 "m" (fun _ => some 3) none
          (some (fun _ => some 4))] false) [0, 1] []).2.2.2 ∧
    MigrationRecord.mk 1 Status.failed ∉
      (executePendingMigrations
        (Manager.mk [Migration.mk 1 "m" (fun _ => some 3) none
          (some (fun _ => some 4))] false) [0, 1] []).2.2.1 := by
  decide

/-- C4 amended: as the claim states, but additionally assuming the exposed
`down` hook succeeds at the failing tenant (when `down` itself fails, its
error replaces the original one and no failed record is written — see the
counterexample).  With tenant `tk` the first failing tenant: all earlier
tenants got `up` (and `test` when exposed), `tk`'s `down` is invoked
exactly when exposed, no completed record or write occurs for that
migration, a failed record is written, later tenants see no hook, the
original error propagates, and no later pending migration's hooks run. -/
theorem tenant_failure_rollback_amended (mgr : Manager) (tenants : List Nat)
    (st : Store) (ps₁ ps₂ : List Migration) (m : Migration)
    (pre post : List Nat) (tk : Nat)
    (hran : mgr.ran = false)
    (hnf : ∀ r ∈ st, r.status ≠ Status.failed)
    (hsorted : List.Pairwise (fun a b => a.version < b.version) mgr.migrations)
    (hsplit_ps : pendingList mgr.migrations st = ps₁ ++ m :: ps₂)
    (hps₁ : ∀ m' ∈ ps₁, ∀ t ∈ tenants, succeedsB m' t = true)
    (htsplit : tenants = pre ++ tk :: post)
    (hpre : ∀ t ∈ pre, succeedsB m t = true)
    (htk : succeedsB m tk = false)
    (hdown : ∀ d, m.downHook = some d → d tk = none)
    (htn : tenants.Nodup) :
    (∃ e, firstErr m tk = some e ∧
      (executePendingMigrations mgr tenants st).1 =
        Except.error (Err.hookError e)) ∧
    (∀ t ∈ pre,
      Event.upCall m.version t ∈
        (executePendingMigrations mgr tenants st).2.2.2 ∧
      (m.testHook.isSome = true →
        Event.testCall m.version t ∈
          (executePendingMigrations mgr tenants st).2.2.2)) ∧
    Event.upCall m.version tk ∈
      (executePendingMigrations mgr tenants st).2.2.2 ∧
    (m.downHook.isSome = true →
      Event.downCall m.version tk ∈
        (executePendingMigrations mgr tenants st).2.2.2) ∧
    (m.downHook = none →
      ∀ t : Nat, Event.downCall m.version t ∉
        (executePendingMigrations mgr tenants st).2.2.2) ∧
    Event.writeCompleted m.version ∉
      (executePendingMigrations mgr tenants st).2.2.2 ∧
    MigrationRecord.mk m.version Status.completed ∉
      (executePendingMigrations mgr tenants st).2.2.1 ∧
    MigrationRecord.mk m.version Status.failed ∈
      (executePendingMigrations mgr tenants st).2.2.1 ∧
    (∀ t ∈ post,
      Event.upCall m.version t ∉
        (executePendingMigrations mgr tenants st).2.2.2 ∧
      Event.testCall m.version t ∉
        (executePendingMigrations mgr tenants st).2.2.2 ∧
      Event.downCall m.version t ∉
        (executePendingMigrations mgr tenants st).2.2.2) ∧
    (∀ m' ∈ ps₂, ∀ ev ∈ (executePendingMigrations mgr tenants st).2.2.2,
      ∀ v, hookVersion ev = some v → v ≠ m'.version) := by
  obtain ⟨e, hfe, hexp⟩ := exec_fail_explicit mgr tenants st ps₁ ps₂ m pre post tk
    hran (findFailed_eq_none st hnf) hsplit_ps hps₁ htsplit hpre htk hdown
  have hpairs : List.Pairwise (fun a b => a.version < b.version)
      (ps₁ ++ m :: ps₂) := by
    rw [← hsplit_ps]
    exact hsorted.filter _
  rw [List.pairwise_append] at hpairs
  obtain ⟨hp₁, hp₂, hp₁₂⟩ := hpairs
  have hvlt : ∀ m' ∈ ps₁, m'.version < m.version :=
    fun m' hm' => hp₁₂ m' hm' m (List.mem_cons_self m ps₂)
  have hvgt : ∀ m' ∈ ps₂, m.version < m'.version := (List.pairwise_cons.mp hp₂).1
  have hm_pl : m ∈ pendingList mgr.migrations st := by
    rw [hsplit_ps]
    exact List.mem_append_right ps₁ (List.mem_cons_self m ps₂)
  have hst_nv : ∀ r ∈ st, r.version ≠ m.version :=
    ((mem_pendingList mgr.migrations st m).mp hm_pl).2
  have htn' : (pre ++ tk :: post).Nodup := htsplit ▸ htn
  rw [List.nodup_append] at htn'
  obtain ⟨-, htn₂, hdisj⟩ := htn'
  have hpost_ne_tk : ∀ t ∈ post, t ≠ tk :=
    fun t ht heq => (List.nodup_cons.mp htn₂).1 (heq ▸ ht)
  have hpost_ne_pre : ∀ t ∈ post, t ∉ pre :=
    fun t ht hpre' => hdisj hpre' (List.mem_cons_of_mem tk ht)
  have hmemT : ∀ ev, ev ∈ (Event.readRecords :: Event.readRecords ::
      (ps₁.flatMap (fullTrace tenants) ++
        (tenantTrace m pre ++ failEvents m tk))) →
      ev = Event.readRecords ∨ (∃ m' ∈ ps₁, ev ∈ fullTrace tenants m') ∨
      ev ∈ tenantTrace m pre ∨ ev ∈ failEvents m tk := by
    intro ev hev
    rcases List.mem_cons.mp hev with h | h
    · exact Or.inl h
    rcases List.mem_cons.mp h with h | h
    · exact Or.inl h
    rcases List.mem_append.mp h with h | h
    · exact Or.inr (Or.inl (List.mem_flatMap.mp h))
    rcases List.mem_append.mp h with h | h
    · exact Or.inr (Or.inr (Or.inl h))
    · exact Or.inr (Or.inr (Or.inr h))
  simp only [hexp]
  refine ⟨⟨e, hfe, rfl⟩, ?_, ?_, ?_, ?_, ?_, ?_, ?_, ?_, ?_⟩
  · intro t ht
    constructor
    · exact List.mem_cons_of_mem _ (List.mem_cons_of_mem _
        (List.mem_append_right _ (List.mem_append_left _
          (mem_tenantTrace_up m pre t ht))))
    · intro hts
      exact List.mem_cons_of_mem _ (List.mem_cons_of_mem _
        (List.mem_append_right _ (List.mem_append_left _
          (mem_tenantTrace_test m pre t ht hts))))
  · exact List.mem_cons_of_mem _ (List.mem_cons_of_mem _
      (List.mem_append_right _ (List.mem_append_right _
        (up_mem_failEvents m tk))))
  · intro hd
    exact List.mem_cons_of_mem _ (List.mem_cons_of_mem _
      (List.mem_append_right _ (List.mem_append_right _
        (down_mem_failEvents m tk hd))))
  · intro hd t hmem
    rcases hmemT _ hmem with h | ⟨m', _, h⟩ | h | h
    · exact Event.noConfusion h
    · rcases mem_fullTrace_shape tenants m' _ h with heq | ⟨t', _, heq | heq⟩
      · exact Event.noConfusion heq
      · exact Event.noConfusion heq
      · exact Event.noConfusion heq
    · rcases mem_tenantTrace_shape m pre _ h with ⟨t', _, heq | heq⟩
      · exact Event.noConfusion heq
      · exact Event.noConfusion heq
    · rcases mem_failEvents_shape_noDown m tk _ hd h with heq | heq | heq
      · exact Event.noConfusion heq
      · exact Event.noConfusion heq
      · exact Event.noConfusion heq
  · intro hmem
    rcases hmemT _ hmem with h | ⟨m', hm', h⟩ | h | h
    · exact Event.noConfusion h
    · rcases mem_fullTrace_shape tenants m' _ h with heq | ⟨t', _, heq | heq⟩
      · have := Event.writeCompleted.inj heq
        have := hvlt m' hm'
        omega
      · exact Event.noConfusion heq
      · exact Event.noConfusion heq
    · rcases mem_tenantTrace_shape m pre _ h with ⟨t', _, heq | heq⟩
      · exact Event.noConfusion heq
      · exact Event.noConfusion heq
    · rcases mem_failEvents_shape m tk _ h with heq | heq | heq | heq
      · exact Event.noConfusion heq
      · exact Event.noConfusion heq
      · exact Event.noConfusion heq
      · exact Event.noConfusion heq
  · intro hmem
    rcases List.mem_append.mp hmem with h | h
    · rcases List.mem_append.mp h with h | h
      · exact hst_nv _ h rfl
      · rcases List.mem_map.mp h with ⟨m', hm', heq⟩
        have := (MigrationRecord.mk.inj heq).1
        have := hvlt m' hm'
        omega
    · rcases List.mem_singleton.mp h with heq
      exact Status.noConfusion (MigrationRecord.mk.inj heq).2
  · exact List.mem_append_right _ (List.mem_singleton.mpr rfl)
  · intro t ht
    have htne := hpost_ne_tk t ht
    have htnp := hpost_ne_pre t ht
    refine ⟨?_, ?_, ?_⟩ <;> intro hmem <;>
      rcases hmemT _ hmem with h | ⟨m', hm', h⟩ | h | h
    · exact Event.noConfusion h
    · rcases mem_fullTrace_shape tenants m' _ h with heq | ⟨t', _, heq | heq⟩
      · exact Event.noConfusion heq
      · have hinj := Event.upCall.inj heq
        have := hvlt m' hm'
        omega
      · exact Event.noConfusion heq
    · rcases mem_tenantTrace_shape m pre _ h with ⟨t', ht', heq | heq⟩
      · exact htnp ((Event.upCall.inj heq).2 ▸ ht')
      · exact Event.noConfusion heq
    · rcases mem_failEvents_shape m tk _ h with heq | heq | heq | heq
      · exact htne (Event.upCall.inj heq).2
      · exact Event.noConfusion heq
      · exact Event.noConfusion heq
      · exact Event.noConfusion heq
    · exact Event.noConfusion h
    · rcases mem_fullTrace_shape tenants m' _ h with heq | ⟨t', _, heq | heq⟩
      · exact Event.noConfusion heq
      · exact Event.noConfusion heq
      · have hinj := Event.testCall.inj heq
        have := hvlt m' hm'
        omega
    · rcases mem_tenantTrace_shape m pre _ h with ⟨t', ht', heq | heq⟩
      · exact Event.noConfusion heq
      · exact htnp ((Event.testCall.inj heq).2 ▸ ht')
    · rcases mem_failEvents_shape m tk _ h with heq | heq | heq | heq
      · exact Event.noConfusion heq
      · exact htne (Event.testCall.inj heq).2
      · exact Event.noConfusion heq
      · exact Event.noConfusion heq
    · exact Event.noConfusion h
    · rcases mem_fullTrace_shape tenants m' _ h with heq | ⟨t', _, heq | heq⟩
      · exact Event.noConfusion heq
      · exact Event.noConfusion heq
      · exact Event.noConfusion heq
    · rcases mem_tenantTrace_shape m pre _ h with ⟨t', ht', heq | heq⟩
      · exact Event.noConfusion heq
      · exact Event.noConfusion heq
    · rcases mem_failEvents_shape m tk _ h with heq | heq | heq | heq
      · exact Event.noConfusion heq
      · exact Event.noConfusion heq
      · exact htne (Event.downCall.inj heq).2
      · exact Event.noConfusion heq
  · intro m' hm' ev hmem v hv hveq
    rcases hmemT _ hmem with h | ⟨m'', hm'', h⟩ | h | h
    · rw [h] at hv
      simp [hookVersion] at hv
    · have := hookVersion_of_fullTrace tenants m'' ev h v hv
      have h1 := hvlt m'' hm''
      have h2 := hvgt m' hm'
      omega
    · have := hookVersion_of_tenantTrace m pre ev h v hv
      have := hvgt m' hm'
      omega
    · have := hookVersion_of_failEvents m tk ev h v hv
      have := hvgt m' hm'
      omega

/-- Witness for the amended C4: one pending migration whose `up` fails at
the second of three tenants, with a succeeding rollback. -/
theorem tenant_failure_rollback_amended_witness :
    (∃ e, firstErr failingMigration 1 = some e ∧
      (executePendingMigrations (Manager.mk [failingMigration] false)
        [0, 1, 2] []).1 = Except.error (Err.hookError e)) ∧
    (∀ t ∈ [0],
      Event.upCall failingMigration.version t ∈
        (executePendingMigrations (Manager.mk [failingMigration] false)
          [0, 1, 2] []).2.2.2 ∧
      (failingMigration.testHook.isSome = true →
        Event.testCall failingMigration.version t ∈
          (executePendingMigrations (Manager.mk [failingMigration] false)
            [0, 1, 2] []).2.2.2)) ∧
    Event.upCall failingMigration.version 1 ∈
      (executePendingMigrations (Manager.mk [failingMigration] false)
        [0, 1, 2] []).2.2.2 ∧
    (failingMigration.downHook.isSome = true →
      Event.downCall failingMigration.version 1 ∈
        (executePendingMigrations (Manager.mk [failingMigration] false)
          [0, 1, 2] []).2.2.2) ∧
    (failingMigration.downHook = none →
      ∀ t : Nat, Event.downCall failingMigration.version t ∉
        (executePendingMigrations (Manager.mk [failingMigration] false)
          [0, 1, 2] []).2.2.2) ∧
    Event.writeCompleted failingMigration.version ∉
      (executePendingMigrations (Manager.mk [failingMigration] false)
        [0, 1, 2] []).2.2.2 ∧
    MigrationRecord.mk failingMigration.version Status.completed ∉
      (executePendingMigrations (Manager.mk [failingMigration] false)
        [0, 1, 2] []).2.2.1 ∧
    MigrationRecord.mk failingMigration.version Status.failed ∈
      (executePendingMigrations (Manager.mk [failingMigration] false)
        [0, 1, 2] []).2.2.1 ∧
    (∀ t ∈ [2],
      Event.upCall failingMigration.version t ∉
        (executePendingMigrations (Manager.mk [failingMigration] false)
          [0, 1, 2] []).2.2.2 ∧
      Event.testCall failingMigration.version t ∉
        (executePendingMigrations (Manager.mk [failingMigration] false)
          [0, 1, 2] []).2.2.2 ∧
      Event.downCall failingMigration.version t ∉
        (executePendingMigrations (Manager.mk [failingMigration] false)
          [0, 1, 2] []).2.2.2) ∧
    (∀ m' ∈ ([] : List Migration),
      ∀ ev ∈ (executePendingMigrations (Manager.mk [failingMigration] false)
        [0, 1, 2] []).2.2.2,
      ∀ v, hookVersion ev = some v → v ≠ m'.version) :=
  tenant_failure_rollback_amended (Manager.mk [failingMigration] false)
    [0, 1, 2] [] [] [] failingMigration [0] [2] 1
    rfl (by simp) (by simp) rfl (by simp) rfl (by decide) (by decide)
    (fun d hd => by cases Option.some.inj hd; rfl) (by decide)

/-- C5 counterexample: a migration whose `up` fails with error 7 and whose
exposed `down` fails with error 9.  The claim promises a failed record
persisted before the original error is re-raised; the code persists no
failed record and raises the down error 9 instead of the original 7. -/
theorem failed_record_persisted_counterexample :
    (executePendingMigrations
      (Manager.mk [Migration.mk 1 "m" (fun _ => some 7) none
        (some (fun _ => some 9))] false) [0] []).1 =
      Except.error (Err.hookError 9) ∧
    (executePendingMigrations
      (Manager.mk [Migration.mk 1 "m" (fun _ => some 7) none
        (some (fun _ => some 9))] false) [0] []).1 ≠
      Except.error (Err.hookError 7) ∧
    Event.writeFailed 1 ∉
      (executePendingMigrations
        (Manager.mk [Migration.mk 1 "m" (fun _ => some 7) none
          (some (fun _ => some 9))] false) [0] []).2.2.2 ∧
    MigrationRecord.mk 1 Status.failed ∉
      (executePendingMigrations
        (Manager.mk [Migration.mk 1 "m" (fun _ => some 7) none
          (some (fun _ => some 9))] false) [0] []).2.2.1 := by
  decide

/-- C5 amended: whenever `up` or `test` first fails at some tenant during
`executePendingMigrations` and the migration's `down` hook, when exposed,
succeeds at that tenant (when `down` itself fails, no failed record is
written and the down error propagates instead — see the counterexample),
a failed record for the migration's version is persisted in the store and
the run re-raises the original error. -/
theorem failed_record_persisted_amended (mgr : Manager) (tenants : List Nat)
    (st : Store) (ps₁ ps₂ : List Migration) (m : Migration)
    (pre post : List Nat) (tk : Nat)
    (hran : mgr.ran = false)
    (hnf : ∀ r ∈ st, r.status ≠ Status.failed)
    (hsplit_ps : pendingList mgr.migrations st = ps₁ ++ m :: ps₂)
    (hps₁ : ∀ m' ∈ ps₁, ∀ t ∈ tenants, succeedsB m' t = true)
    (htsplit : tenants = pre ++ tk :: post)
    (hpre : ∀ t ∈ pre, succeedsB m t = true)
    (htk : succeedsB m tk = false)
    (hdown : ∀ d, m.downHook = some d → d tk = none) :
    ∃ e, firstErr m tk = some e ∧
      (executePendingMigrations mgr tenants st).1 =
        Except.error (Err.hookError e) ∧
      Event.writeFailed m.version ∈
        (executePendingMigrations mgr tenants st).2.2.2 ∧
      MigrationRecord.mk m.version Status.failed ∈
        (executePendingMigrations mgr tenants st).2.2.1 := by
  obtain ⟨e, hfe, hexp⟩ := exec_fail_explicit mgr tenants st ps₁ ps₂ m pre post tk
    hran (findFailed_eq_none st hnf) hsplit_ps hps₁ htsplit hpre htk hdown
  simp only [hexp]
  refine ⟨e, hfe, rfl, ?_, ?_⟩
  · exact List.mem_cons_of_mem _ (List.mem_cons_of_mem _
      (List.mem_append_right _ (List.mem_append_right _
        (writeFailed_mem_failEvents m tk))))
  · exact List.mem_append_right _ (List.mem_singleton.mpr rfl)

/-- Witness for the amended C5: one pending migration whose `up` fails at
the second of two tenants, with a succeeding rollback. -/
theorem failed_record_persisted_amended_witness :
    ∃ e, firstErr failingMigration 1 = some e ∧
      (executePendingMigrations (Manager.mk [failingMigration] false)
        [0, 1] []).1 = Except.error (Err.hookError e) ∧
      Event.writeFailed failingMigration.version ∈
        (executePendingMigrations (Manager.mk [failingMigration] false)
          [0, 1] []).2.2.2 ∧
      MigrationRecord.mk failingMigration.version Status.failed ∈
        (executePendingMigrations (Manager.mk [failingMigration] false)
          [0, 1] []).2.2.1 :=
  failed_record_persisted_amended (Manager.mk [failingMigration] false)
    [0, 1] [] [] [] failingMigration [0] [] 1
    rfl (by simp) rfl (by simp) rfl (by decide) (by decide)
    (fun d hd => by cases Option.some.inj hd; rfl)

/-- Witness for C3: two pending migrations over two tenants. -/
theorem completed_record_temporal_ordering_witness :
    (∃ k, k ≤ (pendingList (Manager.mk [mkMigration 1, mkMigration 2]
        false).migrations []).length ∧
      ((executePendingMigrations (Manager.mk [mkMigration 1, mkMigration 2]
        false) [0, 1] []).2.2.2).filterMap completedVersion =
        ((pendingList (Manager.mk [mkMigration 1, mkMigration 2]
          false).migrations []).take k).map Migration.version) ∧
    List.Pairwise (fun a b => a < b)
      (((executePendingMigrations (Manager.mk [mkMigration 1, mkMigration 2]
        false) [0, 1] []).2.2.2).filterMap completedVersion) ∧
    (∀ (l₁ l₂ : List Event) (m : Migration),
      m ∈ pendingList (Manager.mk [mkMigration 1, mkMigration 2]
        false).migrations [] →
      (executePendingMigrations (Manager.mk [mkMigration 1, mkMigration 2]
        false) [0, 1] []).2.2.2 =
        l₁ ++ Event.writeCompleted m.version :: l₂ →
      ∀ t ∈ [0, 1], succeedsB m t = true ∧ Event.upCall m.version t ∈ l₁ ∧
        (m.testHook.isSome = true → Event.testCall m.version t ∈ l₁)) ∧
    (∀ (i : Nat) (hi : i + 1 < (pendingList (Manager.mk
        [mkMigration 1, mkMigration 2] false).migrations []).length)
        (l₁ l₂ : List Event) (e : Event),
      (executePendingMigrations (Manager.mk [mkMigration 1, mkMigration 2]
        false) [0, 1] []).2.2.2 = l₁ ++ e :: l₂ →
      hookVersion e = some (pendingList (Manager.mk
        [mkMigration 1, mkMigration 2] false).migrations [])[i + 1].version →
      Event.writeCompleted (pendingList (Manager.mk
        [mkMigration 1, mkMigration 2] false).migrations [])[i].version ∈ l₁) :=
  completed_record_temporal_ordering (Manager.mk [mkMigration 1, mkMigration 2]
    false) [0, 1] [] rfl (by simp) (by decide)

end Talk

